import Mathlib

/-!
EMLL: `StlIndexValueIterator` and `SignPredictor`

A shallow embedding of

* `libraries/data/tcc/StlIndexValueIterator.tcc` (constructor, `Next`, `SkipZeros`,
  `MakeVectorIndexValueIterator`), and
* `libraries/predictors/include/SignPredictor.h` (the `SignPredictor` class declaration),

followed by the properties proved about them.

Conventions of the embedding:

* The storage an iterator walks over is a `List α` (`mem`). A C++ iterator into it is the
  offset of the pointed-to element from the start of the storage, a `Nat`; `arr.cbegin()` is
  offset `0` and `arr.cend()` is offset `arr.length`.
* The element type is any `α` with a zero and a decidable equality: the test `*_begin == 0` is
  `v = 0`. For a floating-point element type this reads `==` as that equality.
* `_index` is a `Nat`: it never exceeds the number of increments of `_begin`, which is bounded
  by the storage length in every run that reads only inside the storage.
* Dereferencing an offset outside the storage has no defined result in C++. The operations
  therefore return `Option`: `none` exactly when the code would read `*_begin` at an offset
  `≥ mem.length`.
-/

set_option autoImplicit false
set_option linter.dupNamespace false

namespace emll
namespace data

/-- The data members of `StlIndexValueIterator<IteratorType>`: the cursor `_begin`, the end
cursor `_end` and the logical index `_index`. -/
structure StlIndexValueIterator where
  /-- The cursor, as an offset into the storage. -/
  _begin : Nat
  /-- The end cursor, as an offset into the storage. -/
  _end : Nat
  /-- The logical index. -/
  _index : Nat
  deriving DecidableEq, Repr

variable {α : Type} [Zero α] [DecidableEq α]

/-- The loop of `StlIndexValueIterator::SkipZeros`:
`while (_begin < _end && *_begin == 0) { ++_begin; ++_index; }`.
The guard is evaluated left to right, so `*_begin` is read only when `_begin < _end`. -/
def StlIndexValueIterator.SkipZeros (mem : List α) (s : StlIndexValueIterator) :
    Option StlIndexValueIterator :=
  if s._begin < s._end then
    match mem[s._begin]? with
    | none => none
    | some v =>
      if v = 0 then
        StlIndexValueIterator.SkipZeros mem ⟨s._begin + 1, s._end, s._index + 1⟩
      else some s
  else some s
termination_by s._end - s._begin
decreasing_by simp_wf; omega

/-- The constructor `StlIndexValueIterator(begin, end)`:
`_begin(begin), _end(end), _index(0)`, then `SkipZeros()`. -/
def StlIndexValueIterator.StlIndexValueIterator (mem : List α) (begin_ end_ : Nat) :
    Option data.StlIndexValueIterator :=
  StlIndexValueIterator.SkipZeros mem ⟨begin_, end_, 0⟩

/-- The method `StlIndexValueIterator::Next`: `++_begin; ++_index; SkipZeros();`. -/
def StlIndexValueIterator.Next (mem : List α) (s : data.StlIndexValueIterator) :
    Option data.StlIndexValueIterator :=
  StlIndexValueIterator.SkipZeros mem ⟨s._begin + 1, s._end, s._index + 1⟩

/-- The function `MakeVectorIndexValueIterator(arr)`:
`return VectorIndexValueIterator<ValueType>(arr.cbegin(), arr.cend());`. -/
def MakeVectorIndexValueIterator (arr : List α) : Option StlIndexValueIterator :=
  StlIndexValueIterator.StlIndexValueIterator arr 0 arr.length

/-- Modelled from the spec: `IsValid() / HasNext()` is declared in the class header, which is
not among the sources; the spec gives it as "true iff `current != end`". -/
def StlIndexValueIterator.IsValid (s : data.StlIndexValueIterator) : Bool :=
  s._begin != s._end

/-- Modelled from the spec: `Current()` is declared in the class header, which is not among
the sources; the spec gives it as "returns `(logicalIndex, *current)`". The read of `*current`
has no result outside the storage. -/
def StlIndexValueIterator.Current (mem : List α) (s : data.StlIndexValueIterator) :
    Option (Nat × α) :=
  match mem[s._begin]? with
  | none => none
  | some v => some (s._index, v)

/-- The consumer loop the spec describes, `while (it.IsValid()) { it.Current(); it.Next(); }`,
run for at most `fuel` iterations. It returns the pairs read, in the order read, and the
state in which `IsValid()` was found false; `none` when the fuel does not suffice or a read
falls outside the storage. -/
def StlIndexValueIterator.traverse (mem : List α) :
    Nat → data.StlIndexValueIterator → Option (List (Nat × α) × data.StlIndexValueIterator)
  | fuel, s =>
    if s.IsValid then
      match fuel with
      | 0 => none
      | fuel + 1 =>
        match s.Current mem with
        | none => none
        | some p =>
          match s.Next mem with
          | none => none
          | some s' =>
            match StlIndexValueIterator.traverse mem fuel s' with
            | none => none
            | some (ps, t) => some (p :: ps, t)
    else some ([], s)

/-- Specification side: the entries `(k + i, mem[q + i])` of the storage from offset `q` on
whose value is not zero, in storage order; `k` is the index given to the element at `q`. -/
def nonZeroEntriesFrom (mem : List α) (k q : Nat) : List (Nat × α) :=
  ((mem.drop q).enumFrom k).filter (fun p => decide (p.2 ≠ 0))

/-- The states a client that follows the usage protocol can observe of an iterator built on
the range `[begin_, end_)` of `mem`: the state right after construction, and the state after
a `Next()` that was called in an observed state in which `IsValid()` held. -/
inductive Reachable (mem : List α) (begin_ end_ : Nat) : StlIndexValueIterator → Prop
  | construct {s : StlIndexValueIterator} :
      StlIndexValueIterator.StlIndexValueIterator mem begin_ end_ = some s →
      Reachable mem begin_ end_ s
  | next {s s' : StlIndexValueIterator} :
      Reachable mem begin_ end_ s → s.IsValid = true → s.Next mem = some s' →
      Reachable mem begin_ end_ s'

/-- The states reachable from construction on `[begin_, end_)` of `mem` by any number of
`Next()` calls, whether or not `IsValid()` held when they were made. -/
inductive ReachableAny (mem : List α) (begin_ end_ : Nat) : StlIndexValueIterator → Prop
  | construct {s : StlIndexValueIterator} :
      StlIndexValueIterator.StlIndexValueIterator mem begin_ end_ = some s →
      ReachableAny mem begin_ end_ s
  | next {s s' : StlIndexValueIterator} :
      ReachableAny mem begin_ end_ s → s.Next mem = some s' →
      ReachableAny mem begin_ end_ s'

/-- The loop `while (it.IsValid()) { it.Next(); }`, run for at most `fuel` iterations. It
returns the number of `Next()` calls made and the state in which `IsValid()` was found false;
`none` when the fuel does not suffice or a read falls outside the storage. -/
def StlIndexValueIterator.drain (mem : List α) :
    Nat → data.StlIndexValueIterator → Option (Nat × data.StlIndexValueIterator)
  | fuel, s =>
    if s.IsValid then
      match fuel with
      | 0 => none
      | fuel + 1 =>
        match s.Next mem with
        | none => none
        | some s' =>
          match StlIndexValueIterator.drain mem fuel s' with
          | none => none
          | some (n, t) => some (n + 1, t)
    else some (0, s)

/-- The offsets at which the loop of `SkipZeros` evaluates `*_begin`, in the order of the
reads: the loop of `SkipZeros` with each read recorded. A read outside the storage is
recorded too, and is the last one. -/
def StlIndexValueIterator.SkipZerosReads (mem : List α) (s : data.StlIndexValueIterator) :
    List Nat :=
  if s._begin < s._end then
    s._begin ::
      (match mem[s._begin]? with
       | none => []
       | some v =>
         if v = 0 then
           StlIndexValueIterator.SkipZerosReads mem ⟨s._begin + 1, s._end, s._index + 1⟩
         else [])
  else []
termination_by s._end - s._begin
decreasing_by simp_wf; omega

/-- Everything the operations of the iterator can reach: the storage the cursors point into
and the data members of the iterator. -/
structure World (α : Type) where
  /-- The elements of the source sequence. -/
  storage : List α
  /-- The data members of the iterator. -/
  it : StlIndexValueIterator

/-- `SkipZeros` as a step on the whole state. The loop reaches the storage through the read
`*_begin == 0` only and assigns to `_begin` and `_index` only, so the storage is handed on as
it was. -/
def World.SkipZeros (w : World α) : Option (World α) :=
  match w.it.SkipZeros w.storage with
  | none => none
  | some t => some ⟨w.storage, t⟩

/-- `Next` as a step on the whole state: `++_begin; ++_index; SkipZeros();`. -/
def World.Next (w : World α) : Option (World α) :=
  World.SkipZeros ⟨w.storage, ⟨w.it._begin + 1, w.it._end, w.it._index + 1⟩⟩

/-- The constructor as a step on the whole state: `_begin(begin), _end(end), _index(0)`, then
`SkipZeros()`. -/
def World.StlIndexValueIterator (storage : List α) (begin_ end_ : Nat) : Option (World α) :=
  World.SkipZeros ⟨storage, ⟨begin_, end_, 0⟩⟩

end data

namespace predictors

/-- Modelled from the spec: what `SignPredictor` requires of its template parameter
`PredictorType`, whose definition is not among the sources. The spec asks for "a prediction
operation taking a domain-specific input vector and returning a numeric scalar" and "a
persistence contract (write/read against an archiving collaborator)"; `SignPredictor() =
default` also needs a default constructor. A value of `Archive` is the state of the archiving
collaborator: what an `Archiver` has been given so far, what an `Unarchiver` has still to
hand out. `ReadFromArchive` returns the new state of the object and of the `Unarchiver`. -/
structure PredictorInterface (PredictorType DataVectorType Scalar Archive : Type) where
  /-- The default constructor `PredictorType()`. -/
  DefaultConstruct : PredictorType
  /-- The method `PredictorType::Predict`. -/
  Predict : PredictorType → DataVectorType → Scalar
  /-- The method `PredictorType::WriteToArchive`. -/
  WriteToArchive : PredictorType → Archive → Archive
  /-- The method `PredictorType::ReadFromArchive`. -/
  ReadFromArchive : PredictorType → Archive → PredictorType × Archive

/-- The class `SignPredictor<PredictorType>`: its only data member is
`PredictorType _predictor`. -/
structure SignPredictor (PredictorType : Type) where
  /-- The internal predictor. -/
  _predictor : PredictorType

variable {PredictorType DataVectorType Scalar Archive : Type}

/-- Modelled from the spec: the body of `SignPredictor() = default` is generated by the
compiler; it default-constructs the inner predictor. -/
def SignPredictor.DefaultConstruct
    (I : PredictorInterface PredictorType DataVectorType Scalar Archive) :
    SignPredictor PredictorType :=
  ⟨I.DefaultConstruct⟩

/-- Modelled from the spec: `MakeSignPredictor` and the constructor
`SignPredictor(PredictorType predictor)` are declared in the header and defined in
`SignPredictor.tcc`, which is not among the sources; the spec has "stores a copy/move of the
given inner predictor instance". -/
def MakeSignPredictor (predictor : PredictorType) : SignPredictor PredictorType :=
  ⟨predictor⟩

/-- Modelled from the spec: `GetPredictor` is defined in `SignPredictor.tcc`, which is not
among the sources; the header has "Gets a reference to the internal predictor". -/
def SignPredictor.GetPredictor (sp : SignPredictor PredictorType) : PredictorType :=
  sp._predictor

/-- Modelled from the spec: `Predict` is defined in `SignPredictor.tcc`, which is not among
the sources; the spec has "invokes the inner predictor's prediction operation on `input`,
then returns `true` if the resulting scalar is non-negative [...], else `false`". -/
def SignPredictor.Predict [LinearOrder Scalar] [Zero Scalar]
    (I : PredictorInterface PredictorType DataVectorType Scalar Archive)
    (sp : SignPredictor PredictorType) (dataVector : DataVectorType) : Bool :=
  decide (0 ≤ I.Predict sp._predictor dataVector)

/-- Modelled from the spec: `WriteToArchive` is defined in `SignPredictor.tcc`, which is not
among the sources; the spec has "delegates entirely to the inner predictor's own
archive-write; the decorator itself stores no additional persisted state". -/
def SignPredictor.WriteToArchive
    (I : PredictorInterface PredictorType DataVectorType Scalar Archive)
    (sp : SignPredictor PredictorType) (archiver : Archive) : Archive :=
  I.WriteToArchive sp._predictor archiver

/-- Modelled from the spec: `ReadFromArchive` is defined in `SignPredictor.tcc`, which is not
among the sources; the spec has "delegates entirely to the inner predictor's own
archive-read, reconstructing its state from the archiving collaborator". -/
def SignPredictor.ReadFromArchive
    (I : PredictorInterface PredictorType DataVectorType Scalar Archive)
    (sp : SignPredictor PredictorType) (archiver : Archive) :
    SignPredictor PredictorType × Archive :=
  (⟨(I.ReadFromArchive sp._predictor archiver).1⟩,
    (I.ReadFromArchive sp._predictor archiver).2)

/-- An inner predictor for the examples: the predictor is one number, the prediction adds it
to the sum of the input, the archive is a stack of numbers, writing pushes the number and
reading pops it (an empty archive leaves the object as it is). -/
def biasPredictor : PredictorInterface ℚ (List ℚ) ℚ (List ℚ) where
  DefaultConstruct := 0
  Predict := fun b x => b + x.sum
  WriteToArchive := fun b a => b :: a
  ReadFromArchive := fun b a =>
    match a with
    | [] => (b, [])
    | v :: rest => (v, rest)

end predictors

namespace data

variable {α : Type} [Zero α] [DecidableEq α]

/-! ## Lemmas on the specification side -/

theorem nonZeroEntriesFrom_of_length_le (mem : List α) (k q : Nat) (h : mem.length ≤ q) :
    nonZeroEntriesFrom mem k q = [] := by
  simp [nonZeroEntriesFrom, List.drop_eq_nil_of_le h]

theorem nonZeroEntriesFrom_zero (mem : List α) (k q : Nat) (h : q < mem.length)
    (hz : mem[q] = 0) :
    nonZeroEntriesFrom mem k q = nonZeroEntriesFrom mem (k + 1) (q + 1) := by
  unfold nonZeroEntriesFrom
  rw [List.drop_eq_getElem_cons h, List.enumFrom, List.filter_cons_of_neg]
  simpa using hz

theorem nonZeroEntriesFrom_nonzero (mem : List α) (k q : Nat) (h : q < mem.length)
    (hz : mem[q] ≠ 0) :
    nonZeroEntriesFrom mem k q = (k, mem[q]) :: nonZeroEntriesFrom mem (k + 1) (q + 1) := by
  unfold nonZeroEntriesFrom
  rw [List.drop_eq_getElem_cons h, List.enumFrom, List.filter_cons_of_pos]
  simpa using hz

theorem nonZeroEntriesFrom_length_le (mem : List α) (k q : Nat) :
    (nonZeroEntriesFrom mem k q).length ≤ mem.length - q := by
  unfold nonZeroEntriesFrom
  refine (List.length_filter_le _ _).trans ?_
  simp

/-! ## Lemmas on `SkipZeros` and the consumer loop -/

theorem SkipZeros_of_not_lt (mem : List α) (s : StlIndexValueIterator)
    (h : ¬ s._begin < s._end) : s.SkipZeros mem = some s := by
  rw [StlIndexValueIterator.SkipZeros, if_neg h]

theorem SkipZeros_of_zero (mem : List α) (s : StlIndexValueIterator)
    (h : s._begin < s._end) (hm : mem[s._begin]? = some 0) :
    s.SkipZeros mem
      = StlIndexValueIterator.SkipZeros mem ⟨s._begin + 1, s._end, s._index + 1⟩ := by
  rw [StlIndexValueIterator.SkipZeros, if_pos h, hm]
  simp

theorem SkipZeros_of_nonzero (mem : List α) (s : StlIndexValueIterator) (v : α)
    (hm : mem[s._begin]? = some v) (hv : v ≠ 0) : s.SkipZeros mem = some s := by
  rw [StlIndexValueIterator.SkipZeros, hm]
  simp [hv]

theorem SkipZeros_of_out_of_storage (mem : List α) (s : StlIndexValueIterator)
    (h : s._begin < s._end) (hm : mem.length ≤ s._begin) : s.SkipZeros mem = none := by
  rw [StlIndexValueIterator.SkipZeros, if_pos h, List.getElem?_eq_none hm]

/-- What `SkipZeros` computes on a range that ends inside the storage: it returns, it leaves
`_end` alone, it moves `_begin` and `_index` forward by the same amount, it moves over zeros
only, and it stops at `_end` or on an element that is not zero. -/
theorem SkipZeros_spec (mem : List α) (e : Nat) (he : e ≤ mem.length) (b k : Nat) :
    ∃ q, StlIndexValueIterator.SkipZeros mem ⟨b, e, k⟩ = some ⟨q, e, k + (q - b)⟩ ∧
      b ≤ q ∧ (b ≤ e → q ≤ e) ∧
      (∀ j, b ≤ j → j < q → mem[j]? = some 0) ∧
      (q < e → ∃ v, mem[q]? = some v ∧ v ≠ 0) := by
  generalize hd : e - b = d
  induction d generalizing b k with
  | zero =>
    refine ⟨b, ?_, le_refl _, fun h => h, fun j h1 h2 => absurd h2 (by omega),
      fun h => absurd h (by omega)⟩
    rw [SkipZeros_of_not_lt mem _ (by show ¬ b < e; omega)]
    simp
  | succ d ih =>
    have hbe : b < e := by omega
    have hb : b < mem.length := by omega
    have hget : mem[b]? = some mem[b] := List.getElem?_eq_getElem hb
    by_cases hz : mem[b] = 0
    · obtain ⟨q, hq, h1, h2, h3, h4⟩ := ih (b + 1) (k + 1) (by omega)
      refine ⟨q, ?_, by omega, fun _ => h2 (by omega), ?_, h4⟩
      · rw [SkipZeros_of_zero mem ⟨b, e, k⟩ hbe (by rw [hget, hz]), hq]
        have : k + 1 + (q - (b + 1)) = k + (q - b) := by omega
        rw [this]
      · intro j hj1 hj2
        by_cases hjb : j = b
        · subst hjb; rw [hget, hz]
        · exact h3 j (by omega) hj2
    · refine ⟨b, ?_, le_refl _, fun h => h, fun j h1 h2 => absurd h2 (by omega),
        fun _ => ⟨mem[b], hget, hz⟩⟩
      rw [SkipZeros_of_nonzero mem ⟨b, e, k⟩ mem[b] hget hz]
      simp

/-- Skipping zeros from offset `q` of a full-range iterator and then running the consumer
loop reads exactly the non-zero entries from `q` on and ends exhausted, as soon as the fuel
covers the number of those entries. -/
theorem traverse_after_SkipZeros (mem : List α) (q k fuel : Nat) (hq : q ≤ mem.length)
    (hf : (nonZeroEntriesFrom mem k q).length ≤ fuel) :
    (StlIndexValueIterator.SkipZeros mem ⟨q, mem.length, k⟩).bind
        (StlIndexValueIterator.traverse mem fuel)
      = some (nonZeroEntriesFrom mem k q,
          ⟨mem.length, mem.length, k + (mem.length - q)⟩) := by
  generalize hd : mem.length - q = d
  induction d generalizing q k fuel with
  | zero =>
    have hqe : q = mem.length := by omega
    subst hqe
    rw [SkipZeros_of_not_lt mem _ (by simp), nonZeroEntriesFrom_of_length_le mem k _ (le_refl _)]
    cases fuel <;> simp [StlIndexValueIterator.traverse, StlIndexValueIterator.IsValid]
  | succ d ih =>
    have hb : q < mem.length := by omega
    have hget : mem[q]? = some mem[q] := List.getElem?_eq_getElem hb
    by_cases hz : mem[q] = 0
    · rw [SkipZeros_of_zero mem ⟨q, mem.length, k⟩ hb (by rw [hget, hz]),
        nonZeroEntriesFrom_zero mem k q hb hz]
      rw [nonZeroEntriesFrom_zero mem k q hb hz] at hf
      rw [ih (q + 1) (k + 1) fuel (by omega) hf (by omega)]
      have : k + 1 + d = k + (d + 1) := by omega
      rw [this]
    · rw [SkipZeros_of_nonzero mem ⟨q, mem.length, k⟩ mem[q] hget hz,
        nonZeroEntriesFrom_nonzero mem k q hb hz]
      rw [nonZeroEntriesFrom_nonzero mem k q hb hz] at hf
      cases fuel with
      | zero => simp at hf
      | succ f =>
        have hrec := ih (q + 1) (k + 1) f (by omega) (by simpa using hf) (by omega)
        obtain ⟨s', hs', ht⟩ := Option.bind_eq_some.mp hrec
        have hne : (q != mem.length) = true := by simpa using Nat.ne_of_lt hb
        simp only [Option.some_bind]
        rw [StlIndexValueIterator.traverse]
        simp only [StlIndexValueIterator.IsValid, hne, if_true,
          StlIndexValueIterator.Current, StlIndexValueIterator.Next, hget, hs', ht]
        have : k + 1 + d = k + (d + 1) := by omega
        rw [this]

/-- Whenever `SkipZeros` returns, it has left `_end` alone and moved `_begin` and `_index`
forward by the same amount; no assumption on the range. -/
theorem SkipZeros_offsets (mem : List α) (s t : StlIndexValueIterator)
    (h : s.SkipZeros mem = some t) :
    t._end = s._end ∧ ∃ n, t._begin = s._begin + n ∧ t._index = s._index + n := by
  generalize hd : s._end - s._begin = d
  induction d generalizing s with
  | zero =>
    rw [SkipZeros_of_not_lt mem s (by omega)] at h
    cases h
    exact ⟨rfl, 0, rfl, rfl⟩
  | succ d ih =>
    have hlt : s._begin < s._end := by omega
    cases hm : mem[s._begin]? with
    | none =>
      rw [StlIndexValueIterator.SkipZeros, if_pos hlt, hm] at h
      cases h
    | some v =>
      by_cases hv : v = 0
      · subst hv
        rw [SkipZeros_of_zero mem s hlt hm] at h
        obtain ⟨h1, n, h2, h3⟩ := ih _ h (by simp only; omega)
        exact ⟨h1, n + 1, by simp only at h2; omega, by simp only at h3; omega⟩
      · rw [SkipZeros_of_nonzero mem s v hm hv] at h
        cases h
        exact ⟨rfl, 0, rfl, rfl⟩

/-- The protocol-respecting states are among those reachable by arbitrary `Next()` calls. -/
theorem Reachable_toAny {mem : List α} {b e : Nat} {s : StlIndexValueIterator}
    (h : Reachable mem b e s) : ReachableAny mem b e s := by
  induction h with
  | construct h => exact ReachableAny.construct h
  | next _ _ h ih => exact ReachableAny.next ih h

/-- The index invariant, for arbitrary ranges and arbitrary `Next()` calls. -/
theorem ReachableAny_inv {mem : List α} {b e : Nat} {s : StlIndexValueIterator}
    (h : ReachableAny mem b e s) : s._end = e ∧ s._begin = b + s._index := by
  induction h with
  | construct h =>
    obtain ⟨h1, n, h2, h3⟩ := SkipZeros_offsets mem _ _ h
    simp only at h1 h2 h3
    exact ⟨h1, by omega⟩
  | next _ h ih =>
    obtain ⟨h1, n, h2, h3⟩ := SkipZeros_offsets mem _ _ h
    simp only at h1 h2 h3
    exact ⟨by omega, by omega⟩

/-- The invariant of the protocol-respecting states on a valid range inside the storage: the
cursor stays within the range and is parked (at `_end`, or on an element that is not zero). -/
theorem Reachable_inv {mem : List α} {b e : Nat} {s : StlIndexValueIterator}
    (hbe : b ≤ e) (he : e ≤ mem.length) (h : Reachable mem b e s) :
    s._end = e ∧ b ≤ s._begin ∧ s._begin ≤ e ∧
      (s._begin < e → ∃ v, mem[s._begin]? = some v ∧ v ≠ 0) := by
  induction h with
  | construct h =>
    obtain ⟨q, hq, h1, h2, _, h4⟩ := SkipZeros_spec mem e he b 0
    rw [StlIndexValueIterator.StlIndexValueIterator, hq] at h
    cases h
    exact ⟨rfl, h1, h2 hbe, h4⟩
  | @next s s' _ hv h ih =>
    obtain ⟨i1, i2, i3, _⟩ := ih
    have hne : s._begin ≠ s._end := by simpa [StlIndexValueIterator.IsValid] using hv
    obtain ⟨q, hq, h1, h2, _, h4⟩ := SkipZeros_spec mem e he (s._begin + 1) (s._index + 1)
    rw [StlIndexValueIterator.Next, i1, hq] at h
    cases h
    exact ⟨rfl, by simp only; omega, h2 (by omega), h4⟩

/-- On a full-range iterator, `SkipZeros` from offset `b` stops at the least offset `≥ b`
holding a non-zero element when there is one, and at the end of the storage otherwise. -/
theorem SkipZeros_least (S : List α) (b k : Nat) (hb : b ≤ S.length) :
    ∃ q, StlIndexValueIterator.SkipZeros S ⟨b, S.length, k⟩ = some ⟨q, S.length, k + (q - b)⟩ ∧
      b ≤ q ∧ q ≤ S.length ∧
      ((∃ j, b ≤ j ∧ j < S.length ∧ S[j]? ≠ some 0) →
        q < S.length ∧ S[q]? ≠ some 0 ∧
          ∀ j, b ≤ j → j < S.length → S[j]? ≠ some 0 → q ≤ j) ∧
      ((¬ ∃ j, b ≤ j ∧ j < S.length ∧ S[j]? ≠ some 0) → q = S.length) := by
  obtain ⟨q, hq, h1, h2, h3, h4⟩ := SkipZeros_spec S S.length (le_refl _) b k
  have hnz : q < S.length → S[q]? ≠ some 0 := by
    intro hlt hq0
    obtain ⟨v, hv, hv0⟩ := h4 hlt
    rw [hv] at hq0
    exact hv0 (Option.some.inj hq0)
  have hleast : ∀ j, b ≤ j → j < S.length → S[j]? ≠ some 0 → q ≤ j := by
    intro j hj1 _ hj3
    by_contra hlt
    exact hj3 (h3 j hj1 (by omega))
  refine ⟨q, hq, h1, h2 hb, ?_, ?_⟩
  · rintro ⟨j, hj1, hj2, hj3⟩
    have hqj := hleast j hj1 hj2 hj3
    exact ⟨by omega, hnz (by omega), hleast⟩
  · intro hno
    by_contra hne
    exact hno ⟨q, h1, by have := h2 hb; omega, hnz (by have := h2 hb; omega)⟩

/-- Construction on the full range followed by the consumer loop: the loop reads the non-zero
entries of `S` with their positions, in order, and ends exhausted, on any fuel `≥ |S|`. -/
theorem traverse_full_range (S : List α) (n : Nat) :
    ∃ s t, StlIndexValueIterator.StlIndexValueIterator S 0 S.length = some s ∧
      s.traverse S (S.length + n) = some (S.enum.filter (fun p => decide (p.2 ≠ 0)), t) ∧
      t.IsValid = false := by
  have hlen : (nonZeroEntriesFrom S 0 0).length ≤ S.length + n :=
    (nonZeroEntriesFrom_length_le S 0 0).trans (by omega)
  have h := traverse_after_SkipZeros S 0 0 (S.length + n) (Nat.zero_le _) hlen
  obtain ⟨s, hs, ht⟩ := Option.bind_eq_some.mp h
  refine ⟨s, ⟨S.length, S.length, 0 + (S.length - 0)⟩, hs, ?_, ?_⟩
  · rw [ht]
    simp [nonZeroEntriesFrom, List.enum]
  · simp [StlIndexValueIterator.IsValid]

/-- Skipping zeros from offset `q` of a full-range iterator and then calling `Next()` while
`IsValid()` holds: the loop ends, exhausted, after as many `Next()` calls as there are
non-zero elements from `q` on, when the fuel covers that number, and not before. -/
theorem drain_after_SkipZeros (mem : List α) (q k fuel : Nat) (hq : q ≤ mem.length) :
    (StlIndexValueIterator.SkipZeros mem ⟨q, mem.length, k⟩).bind
        (StlIndexValueIterator.drain mem fuel)
      = if ((mem.drop q).filter (fun x => decide (x ≠ 0))).length ≤ fuel then
          some (((mem.drop q).filter (fun x => decide (x ≠ 0))).length,
            ⟨mem.length, mem.length, k + (mem.length - q)⟩)
        else none := by
  generalize hd : mem.length - q = d
  induction d generalizing q k fuel with
  | zero =>
    have hqe : q = mem.length := by omega
    subst hqe
    rw [SkipZeros_of_not_lt mem _ (by simp), List.drop_length]
    cases fuel <;> simp [StlIndexValueIterator.drain, StlIndexValueIterator.IsValid]
  | succ d ih =>
    have hb : q < mem.length := by omega
    have hget : mem[q]? = some mem[q] := List.getElem?_eq_getElem hb
    by_cases hz : mem[q] = 0
    · rw [SkipZeros_of_zero mem ⟨q, mem.length, k⟩ hb (by rw [hget, hz]),
        List.drop_eq_getElem_cons hb, List.filter_cons_of_neg (by simpa using hz),
        ih (q + 1) (k + 1) fuel (by omega) (by omega)]
      have : k + 1 + d = k + (d + 1) := by omega
      rw [this]
    · rw [SkipZeros_of_nonzero mem ⟨q, mem.length, k⟩ mem[q] hget hz,
        List.drop_eq_getElem_cons hb, List.filter_cons_of_pos (by simpa using hz)]
      have hne : (q != mem.length) = true := by simpa using Nat.ne_of_lt hb
      simp only [Option.some_bind, List.length_cons]
      cases fuel with
      | zero =>
        rw [StlIndexValueIterator.drain]
        simp [StlIndexValueIterator.IsValid, hne]
      | succ f =>
        have hrec := ih (q + 1) (k + 1) f (by omega) (by omega)
        have hidx : k + 1 + d = k + (d + 1) := by omega
        rw [hidx] at hrec
        rw [StlIndexValueIterator.drain]
        simp only [StlIndexValueIterator.IsValid, hne, if_true, StlIndexValueIterator.Next]
        generalize ((mem.drop (q + 1)).filter (fun x => decide (x ≠ 0))).length = c at hrec ⊢
        cases hs : StlIndexValueIterator.SkipZeros mem ⟨q + 1, mem.length, k + 1⟩ with
        | none =>
          rw [hs] at hrec
          simp only [Option.none_bind] at hrec
          by_cases hle : c ≤ f
          · rw [if_pos hle] at hrec
            cases hrec
          · simp [hle]
        | some s' =>
          rw [hs] at hrec
          simp only [Option.some_bind] at hrec
          simp only [hrec]
          by_cases hle : c ≤ f
          · simp [hle]
          · simp [hle]

/-- Every read of the loop of `SkipZeros` is at an offset from `_begin` on and before
`_end`. -/
theorem SkipZerosReads_bounds (mem : List α) (s : StlIndexValueIterator) :
    ∀ j ∈ s.SkipZerosReads mem, s._begin ≤ j ∧ j < s._end := by
  generalize hd : s._end - s._begin = d
  induction d generalizing s with
  | zero =>
    rw [StlIndexValueIterator.SkipZerosReads, if_neg (by omega)]
    simp
  | succ d ih =>
    have hlt : s._begin < s._end := by omega
    rw [StlIndexValueIterator.SkipZerosReads, if_pos hlt]
    intro j hj
    rcases List.mem_cons.mp hj with h | h
    · omega
    · cases hm : mem[s._begin]? with
      | none => rw [hm] at h; simp at h
      | some v =>
        rw [hm] at h
        by_cases hv : v = 0
        · simp only [hv, if_true] at h
          have := ih _ (by simp only; omega) j h
          simp only at this
          omega
        · simp [hv] at h

/-- The length of the leading run of zeros of a list, from what lies at each position. -/
theorem takeWhile_zero_length (l : List α) (n : Nat) (hn : n ≤ l.length)
    (hz : ∀ j, j < n → l[j]? = some 0) (hstop : n < l.length → l[n]? ≠ some 0) :
    (l.takeWhile (fun x => decide (x = 0))).length = n := by
  induction l generalizing n with
  | nil =>
    have : n = 0 := by simpa using hn
    simp [this]
  | cons x xs ih =>
    cases n with
    | zero =>
      have hx : x ≠ 0 := by
        intro hx
        exact hstop (by simp) (by simp [hx])
      simp [List.takeWhile_cons, hx]
    | succ m =>
      have hx : x = 0 := by
        have := hz 0 (by omega)
        simpa using this
      have hrec := ih m (by simpa using hn)
        (fun j hj => by simpa using hz (j + 1) (by omega))
        (fun hm => by simpa using hstop (by simpa using hm))
      simp [List.takeWhile_cons, hx, hrec]

/-! ## The claims -/

/-- C1: for every dense sequence `S`, building the iterator on the full range of `S` returns,
and the consumer loop (read `Current()`, call `Next()`, while `IsValid()`) run from that state
reads exactly the pairs `(i, S[i])` with `S[i] ≠ 0`, for `i` ascending, and stops in an
exhausted state; any fuel of at least `|S|` iterations suffices. On
`S = [0, 0, 3, 0, -5, 0, 0, 7]` the pairs are `(2, 3), (4, -5), (7, 7)`, read in three
iterations, and the iterator is then exhausted. -/
theorem C1_traverse_yields_nonzero_entries :
    (∀ (S : List α) (n : Nat), ∃ s t,
      StlIndexValueIterator.StlIndexValueIterator S 0 S.length = some s ∧
      s.traverse S (S.length + n)
        = some (S.enum.filter (fun p => decide (p.2 ≠ 0)), t) ∧
      t.IsValid = false) ∧
    ((StlIndexValueIterator.StlIndexValueIterator
        ([0, 0, 3, 0, -5, 0, 0, 7] : List Int) 0 8).bind
      (StlIndexValueIterator.traverse ([0, 0, 3, 0, -5, 0, 0, 7] : List Int) 3)
      = some ([(2, 3), (4, -5), (7, 7)], ⟨8, 8, 8⟩) ∧
     StlIndexValueIterator.IsValid ⟨8, 8, 8⟩ = false) := by
  refine ⟨fun S n => traverse_full_range S n, ?_, by decide⟩
  simp [StlIndexValueIterator.StlIndexValueIterator, StlIndexValueIterator.SkipZeros,
    StlIndexValueIterator.traverse, StlIndexValueIterator.IsValid,
    StlIndexValueIterator.Current, StlIndexValueIterator.Next]

/-- C2 (skip-zero invariant): on a valid range `begin_ ≤ end_` inside the storage, every state
observed under the usage protocol (right after construction, or after a `Next()` called while
`IsValid()` held) is exhausted (`_begin = _end`) or has a non-zero element at `_begin`.
The operations involved return: construction does, and so does `Next()` from every such
state in which `IsValid()` holds. -/
theorem C2_skip_zero_invariant (mem : List α) (begin_ end_ : Nat) (s : StlIndexValueIterator)
    (hbe : begin_ ≤ end_) (he : end_ ≤ mem.length) (hr : Reachable mem begin_ end_ s) :
    (s._begin = s._end ∨ ∃ v, mem[s._begin]? = some v ∧ v ≠ 0) ∧
    (∃ s0, StlIndexValueIterator.StlIndexValueIterator mem begin_ end_ = some s0) ∧
    (s.IsValid = true → ∃ s', s.Next mem = some s') := by
  obtain ⟨i1, _, i3, i4⟩ := Reachable_inv hbe he hr
  refine ⟨?_, ?_, fun _ => ?_⟩
  · by_cases h : s._begin = s._end
    · exact Or.inl h
    · exact Or.inr (i4 (by omega))
  · obtain ⟨q, hq, _⟩ := SkipZeros_spec mem end_ he begin_ 0
    exact ⟨_, hq⟩
  · obtain ⟨q, hq, _⟩ := SkipZeros_spec mem end_ he (s._begin + 1) (s._index + 1)
    exact ⟨_, by rw [StlIndexValueIterator.Next, i1, hq]⟩

/-- C2 at `[0, 0, 3, 0, -5, 0, 0, 7]`, full range, in the state after the first `Next()`. -/
theorem C2_skip_zero_invariant_witness :
    Reachable ([0, 0, 3, 0, -5, 0, 0, 7] : List Int) 0 8 ⟨4, 8, 4⟩ ∧
    (((4 : Nat) = 8 ∨ ∃ v, ([0, 0, 3, 0, -5, 0, 0, 7] : List Int)[4]? = some v ∧ v ≠ 0) ∧
     (∃ s0, StlIndexValueIterator.StlIndexValueIterator
        ([0, 0, 3, 0, -5, 0, 0, 7] : List Int) 0 8 = some s0) ∧
     (StlIndexValueIterator.IsValid ⟨4, 8, 4⟩ = true →
        ∃ s', StlIndexValueIterator.Next ([0, 0, 3, 0, -5, 0, 0, 7] : List Int) ⟨4, 8, 4⟩
          = some s')) :=
  have hr : Reachable ([0, 0, 3, 0, -5, 0, 0, 7] : List Int) 0 8 ⟨4, 8, 4⟩ :=
    Reachable.next (s := ⟨2, 8, 2⟩)
      (Reachable.construct (by
        simp [StlIndexValueIterator.StlIndexValueIterator, StlIndexValueIterator.SkipZeros]))
      (by decide)
      (by simp [StlIndexValueIterator.Next, StlIndexValueIterator.SkipZeros])
  ⟨hr, C2_skip_zero_invariant _ 0 8 ⟨4, 8, 4⟩ (by decide) (by decide) hr⟩

/-- C3 (index invariant): in every state reachable from construction on `[begin_, end_)` by
any number of `Next()` calls, `_index` is the offset of `_begin` from the original begin.
Hence whenever `Current()` has a result it is `(i, mem[begin_ + i])` with `i` that offset; and
in every state observed under the usage protocol on a valid range in which `IsValid()` holds,
`Current()` returns `(i, S[i])` for `S` the range the iterator was built on and
`i = _index`. -/
theorem C3_index_invariant (mem : List α) (begin_ end_ : Nat) (s : StlIndexValueIterator)
    (hr : ReachableAny mem begin_ end_ s) :
    s._begin = begin_ + s._index ∧
    (∀ p, s.Current mem = some p →
      p.1 = s._begin - begin_ ∧ mem[begin_ + p.1]? = some p.2) ∧
    (begin_ ≤ end_ → end_ ≤ mem.length → Reachable mem begin_ end_ s → s.IsValid = true →
      ∃ v, s.Current mem = some (s._index, v) ∧
        ((mem.take end_).drop begin_)[s._index]? = some v) := by
  obtain ⟨_, hidx⟩ := ReachableAny_inv hr
  refine ⟨hidx, fun p hp => ?_, fun hbe he hp hv => ?_⟩
  · unfold StlIndexValueIterator.Current at hp
    cases hm : mem[s._begin]? with
    | none => rw [hm] at hp; cases hp
    | some v =>
      rw [hm] at hp
      cases hp
      exact ⟨by simp only; omega, by simp only; rw [← hidx, hm]⟩
  · obtain ⟨i1, _, i3, i4⟩ := Reachable_inv hbe he hp
    have hne : s._begin ≠ s._end := by simpa [StlIndexValueIterator.IsValid] using hv
    obtain ⟨v, hm, _⟩ := i4 (by omega)
    refine ⟨v, by simp [StlIndexValueIterator.Current, hm], ?_⟩
    have hlt : begin_ + s._index < end_ := by omega
    rw [List.getElem?_drop, List.getElem?_take_of_lt hlt, ← hidx, hm]

/-- C3 at `[0, 0, 3, 0, -5, 0, 0, 7]`, full range, in the state after the first `Next()`. -/
theorem C3_index_invariant_witness :
    ReachableAny ([0, 0, 3, 0, -5, 0, 0, 7] : List Int) 0 8 ⟨4, 8, 4⟩ ∧
    StlIndexValueIterator.Current ([0, 0, 3, 0, -5, 0, 0, 7] : List Int) ⟨4, 8, 4⟩
      = some (4, -5) ∧
    (4 : Nat) = 0 + 4 :=
  have hr : ReachableAny ([0, 0, 3, 0, -5, 0, 0, 7] : List Int) 0 8 ⟨4, 8, 4⟩ :=
    ReachableAny.next (s := ⟨2, 8, 2⟩)
      (ReachableAny.construct (by
        simp [StlIndexValueIterator.StlIndexValueIterator, StlIndexValueIterator.SkipZeros]))
      (by simp [StlIndexValueIterator.Next, StlIndexValueIterator.SkipZeros])
  ⟨hr, by simp [StlIndexValueIterator.Current],
    (C3_index_invariant _ 0 8 ⟨4, 8, 4⟩ hr).1⟩

/-- C4 (postcondition of `Next()`): on a full-range iterator over `S` in the state with cursor
and logical index at `p < |S|`, `Next()` returns a state whose cursor and logical index are
one and the same `q`: the least `q > p` with `S[q] ≠ 0` when such a position exists, and `|S|`
(exhausted) when none does. -/
theorem C4_Next_postcondition (S : List α) (p : Nat) (hp : p < S.length) :
    ∃ q, StlIndexValueIterator.Next S ⟨p, S.length, p⟩ = some ⟨q, S.length, q⟩ ∧
      ((∃ j, p < j ∧ j < S.length ∧ S[j]? ≠ some 0) →
        p < q ∧ q < S.length ∧ S[q]? ≠ some 0 ∧
          ∀ j, p < j → j < S.length → S[j]? ≠ some 0 → q ≤ j) ∧
      ((¬ ∃ j, p < j ∧ j < S.length ∧ S[j]? ≠ some 0) → q = S.length) := by
  obtain ⟨q, hq, h1, _, h3, h4⟩ := SkipZeros_least S (p + 1) (p + 1) (by omega)
  have hidx : p + 1 + (q - (p + 1)) = q := by omega
  rw [hidx] at hq
  refine ⟨q, hq, ?_, ?_⟩
  · rintro ⟨j, hj1, hj2, hj3⟩
    obtain ⟨a1, a2, a3⟩ := h3 ⟨j, hj1, hj2, hj3⟩
    exact ⟨by omega, a1, a2, fun i hi1 hi2 hi3 => a3 i hi1 hi2 hi3⟩
  · intro hno
    exact h4 (fun ⟨j, hj1, hj2, hj3⟩ => hno ⟨j, hj1, hj2, hj3⟩)

/-- C4 at `S = [0, 0, 3, 0, -5, 0, 0, 7]`, `p = 2`: `Next()` parks the iterator at `4`. -/
theorem C4_Next_postcondition_witness :
    (2 : Nat) < ([0, 0, 3, 0, -5, 0, 0, 7] : List Int).length ∧
    StlIndexValueIterator.Next ([0, 0, 3, 0, -5, 0, 0, 7] : List Int) ⟨2, 8, 2⟩
      = some ⟨4, 8, 4⟩ ∧
    ∃ q, StlIndexValueIterator.Next ([0, 0, 3, 0, -5, 0, 0, 7] : List Int)
        ⟨2, ([0, 0, 3, 0, -5, 0, 0, 7] : List Int).length, 2⟩
        = some ⟨q, ([0, 0, 3, 0, -5, 0, 0, 7] : List Int).length, q⟩ ∧
      ((∃ j, 2 < j ∧ j < ([0, 0, 3, 0, -5, 0, 0, 7] : List Int).length ∧
          ([0, 0, 3, 0, -5, 0, 0, 7] : List Int)[j]? ≠ some 0) →
        2 < q ∧ q < ([0, 0, 3, 0, -5, 0, 0, 7] : List Int).length ∧
          ([0, 0, 3, 0, -5, 0, 0, 7] : List Int)[q]? ≠ some 0 ∧
          ∀ j, 2 < j → j < ([0, 0, 3, 0, -5, 0, 0, 7] : List Int).length →
            ([0, 0, 3, 0, -5, 0, 0, 7] : List Int)[j]? ≠ some 0 → q ≤ j) ∧
      ((¬ ∃ j, 2 < j ∧ j < ([0, 0, 3, 0, -5, 0, 0, 7] : List Int).length ∧
          ([0, 0, 3, 0, -5, 0, 0, 7] : List Int)[j]? ≠ some 0) →
        q = ([0, 0, 3, 0, -5, 0, 0, 7] : List Int).length) :=
  ⟨by decide, by simp [StlIndexValueIterator.Next, StlIndexValueIterator.SkipZeros],
    C4_Next_postcondition ([0, 0, 3, 0, -5, 0, 0, 7] : List Int) 2 (by decide)⟩

/-- C5 (postcondition of construction): building the iterator on the full range of `S`
returns a state whose cursor and logical index are one and the same `q`: the least `q ≥ 0`
with `S[q] ≠ 0` when such a position exists (the leading zero run is skipped), and `|S|` when
none does. In particular, when every element of `S` is zero (the empty `S` included) the
iterator is exhausted right after construction: `IsValid()` is false. -/
theorem C5_construction_postcondition (S : List α) :
    ∃ q, StlIndexValueIterator.StlIndexValueIterator S 0 S.length = some ⟨q, S.length, q⟩ ∧
      ((∃ j, j < S.length ∧ S[j]? ≠ some 0) →
        q < S.length ∧ S[q]? ≠ some 0 ∧ ∀ j, j < S.length → S[j]? ≠ some 0 → q ≤ j) ∧
      ((¬ ∃ j, j < S.length ∧ S[j]? ≠ some 0) → q = S.length) ∧
      ((∀ x ∈ S, x = 0) →
        q = S.length ∧ StlIndexValueIterator.IsValid ⟨q, S.length, q⟩ = false) := by
  obtain ⟨q, hq, _, _, h3, h4⟩ := SkipZeros_least S 0 0 (Nat.zero_le _)
  have hidx : 0 + (q - 0) = q := by omega
  rw [hidx] at hq
  have hnone : (¬ ∃ j, j < S.length ∧ S[j]? ≠ some 0) → q = S.length :=
    fun hno => h4 (fun ⟨j, _, hj2, hj3⟩ => hno ⟨j, hj2, hj3⟩)
  refine ⟨q, hq, ?_, hnone, ?_⟩
  · rintro ⟨j, hj2, hj3⟩
    obtain ⟨a1, a2, a3⟩ := h3 ⟨j, Nat.zero_le _, hj2, hj3⟩
    exact ⟨a1, a2, fun i hi2 hi3 => a3 i (Nat.zero_le _) hi2 hi3⟩
  · intro hall
    have hq' : q = S.length := by
      apply hnone
      rintro ⟨j, hj2, hj3⟩
      apply hj3
      rw [List.getElem?_eq_getElem hj2, hall _ (List.getElem_mem hj2)]
    exact ⟨hq', by simp [StlIndexValueIterator.IsValid, hq']⟩

/-- C6: when `S` has no zero element, building the iterator on the full range returns and the
consumer loop reads exactly `|S|` pairs, the `k`-th of them `(k, S[k])` for `k = 0..|S|-1`,
and ends exhausted; any fuel of at least `|S|` iterations suffices. -/
theorem C6_no_zero_yields_every_element (S : List α) (n : Nat) (hnz : ∀ x ∈ S, x ≠ 0) :
    ∃ ps s t, StlIndexValueIterator.StlIndexValueIterator S 0 S.length = some s ∧
      s.traverse S (S.length + n) = some (ps, t) ∧
      t.IsValid = false ∧
      ps.length = S.length ∧
      ∀ k (hk : k < S.length), ps[k]? = some (k, S[k]) := by
  obtain ⟨s, t, hs, ht, hv⟩ := traverse_full_range S n
  have hall : S.enum.filter (fun p => decide (p.2 ≠ 0)) = S.enum := by
    rw [List.filter_eq_self]
    intro a ha
    simpa using hnz _ (List.snd_mem_of_mem_enum ha)
  rw [hall] at ht
  refine ⟨S.enum, s, t, hs, ht, hv, List.enum_length, fun k hk => ?_⟩
  rw [List.getElem?_enum, List.getElem?_eq_getElem hk]
  rfl

/-- C6 at `S = [3, -5, 7]`: the pairs are `(0, 3), (1, -5), (2, 7)`. -/
theorem C6_no_zero_yields_every_element_witness :
    (∀ x ∈ ([3, -5, 7] : List Int), x ≠ 0) ∧
    (StlIndexValueIterator.StlIndexValueIterator ([3, -5, 7] : List Int) 0 3).bind
      (StlIndexValueIterator.traverse ([3, -5, 7] : List Int) 3)
      = some ([(0, 3), (1, -5), (2, 7)], ⟨3, 3, 3⟩) ∧
    ∃ ps s t, StlIndexValueIterator.StlIndexValueIterator ([3, -5, 7] : List Int) 0
        ([3, -5, 7] : List Int).length = some s ∧
      s.traverse ([3, -5, 7] : List Int) (([3, -5, 7] : List Int).length + 0) = some (ps, t) ∧
      t.IsValid = false ∧
      ps.length = ([3, -5, 7] : List Int).length ∧
      ∀ k (hk : k < ([3, -5, 7] : List Int).length),
        ps[k]? = some (k, ([3, -5, 7] : List Int)[k]) :=
  ⟨by decide,
    by simp [StlIndexValueIterator.StlIndexValueIterator, StlIndexValueIterator.SkipZeros,
      StlIndexValueIterator.traverse, StlIndexValueIterator.IsValid,
      StlIndexValueIterator.Current, StlIndexValueIterator.Next],
    C6_no_zero_yields_every_element ([3, -5, 7] : List Int) 0 (by decide)⟩

/-- C10: `MakeVectorIndexValueIterator(arr)` is the state the constructor gives on
`(arr.cbegin(), arr.cend())`, that is on offsets `0` and `|arr|`, and nothing more. It always
returns; the state is bound to the full extent of `arr`: `_end` is `|arr|`, the logical index
counts from element `0` (it equals the cursor offset), only zeros lie before the cursor, and
the consumer loop run from it reads every non-zero entry of `arr`. -/
theorem C10_MakeVectorIndexValueIterator (arr : List α) :
    MakeVectorIndexValueIterator arr
      = StlIndexValueIterator.StlIndexValueIterator arr 0 arr.length ∧
    ∃ s, MakeVectorIndexValueIterator arr = some s ∧
      s._end = arr.length ∧ s._index = s._begin ∧ s._begin ≤ arr.length ∧
      (∀ j, j < s._begin → arr[j]? = some 0) ∧
      ∀ n, ∃ t, s.traverse arr (arr.length + n)
        = some (arr.enum.filter (fun p => decide (p.2 ≠ 0)), t) := by
  refine ⟨rfl, ?_⟩
  obtain ⟨q, hq, _, h2, h3, _⟩ := SkipZeros_spec arr arr.length (le_refl _) 0 0
  refine ⟨⟨q, arr.length, 0 + (q - 0)⟩, hq, rfl, by simp, h2 (Nat.zero_le _),
    fun j hj => h3 j (Nat.zero_le _) hj, fun n => ?_⟩
  obtain ⟨s, t, hs, ht, _⟩ := traverse_full_range arr n
  rw [StlIndexValueIterator.StlIndexValueIterator, hq] at hs
  cases hs
  exact ⟨t, ht⟩

/-- C11 (traversal is finite and bounded by the source length): for every `S`,
(1) the loop of `SkipZeros` on a full-range state with cursor `p ≤ |S|` returns, after
`_begin - p ≤ |S| - p` increments; (2) construction returns, and from the state it gives the
loop `while (IsValid()) Next()` ends, exhausted, after exactly as many `Next()` calls as `S`
has non-zero elements: with that much fuel or more it returns that count, with less it does
not finish; (3) that count is at most `|S|`; (4) `Next()` from a state with cursor `p < |S|`
returns and makes `|S| - _begin` strictly smaller. On `[0, 0, 3, 0, -5, 0, 0, 7]` the loop
makes three `Next()` calls. -/
theorem C11_traversal_is_finite :
    (∀ S : List α,
      (∀ p k, p ≤ S.length →
        ∃ t, StlIndexValueIterator.SkipZeros S ⟨p, S.length, k⟩ = some t ∧
          t._begin - p ≤ S.length - p) ∧
      (∃ s t, StlIndexValueIterator.StlIndexValueIterator S 0 S.length = some s ∧
        t.IsValid = false ∧
        ∀ fuel, s.drain S fuel
          = if (S.filter (fun x => decide (x ≠ 0))).length ≤ fuel then
              some ((S.filter (fun x => decide (x ≠ 0))).length, t)
            else none) ∧
      (S.filter (fun x => decide (x ≠ 0))).length ≤ S.length ∧
      (∀ p k, p < S.length →
        ∃ t, StlIndexValueIterator.Next S ⟨p, S.length, k⟩ = some t ∧
          S.length - t._begin < S.length - p)) ∧
    (StlIndexValueIterator.drain ([0, 0, 3, 0, -5, 0, 0, 7] : List Int) 3 ⟨2, 8, 2⟩
        = some (3, ⟨8, 8, 8⟩) ∧
      StlIndexValueIterator.drain ([0, 0, 3, 0, -5, 0, 0, 7] : List Int) 2 ⟨2, 8, 2⟩
        = none) := by
  refine ⟨fun S => ⟨fun p k hp => ?_, ?_, List.length_filter_le _ _, fun p k hp => ?_⟩, ?_, ?_⟩
  · obtain ⟨q, hq, _, h2, _⟩ := SkipZeros_spec S S.length (le_refl _) p k
    exact ⟨_, hq, by have := h2 hp; simp only; omega⟩
  · obtain ⟨q, hq, _⟩ := SkipZeros_spec S S.length (le_refl _) 0 0
    refine ⟨_, ⟨S.length, S.length, 0 + (S.length - 0)⟩, hq, by
      simp [StlIndexValueIterator.IsValid], fun fuel => ?_⟩
    have h := drain_after_SkipZeros S 0 0 fuel (Nat.zero_le _)
    rw [hq] at h
    simpa only [Option.some_bind, List.drop_zero] using h
  · obtain ⟨q, hq, h1, h2, _⟩ := SkipZeros_spec S S.length (le_refl _) (p + 1) k.succ
    exact ⟨_, hq, by have := h2 (by omega); simp only; omega⟩
  · simp [StlIndexValueIterator.drain, StlIndexValueIterator.SkipZeros,
      StlIndexValueIterator.IsValid, StlIndexValueIterator.Next]
  · simp [StlIndexValueIterator.drain, StlIndexValueIterator.SkipZeros,
      StlIndexValueIterator.IsValid, StlIndexValueIterator.Next]

/-- C12 (frame): on the whole state (storage and data members), whenever `SkipZeros`, `Next()`
or the constructor returns, the storage is element for element what it was and `_end` is what
it was (for the constructor: the `end` it was given); `_begin` and `_index` are the only
members that move, by the same amount. The steps on the whole state have the iterator
component of the plain operations, and they return whenever `_end` lies inside the storage. -/
theorem C12_frame :
    (∀ w w' : World α, w.SkipZeros = some w' →
      w'.storage = w.storage ∧ w'.it._end = w.it._end ∧
      ∃ n, w'.it._begin = w.it._begin + n ∧ w'.it._index = w.it._index + n) ∧
    (∀ w w' : World α, w.Next = some w' →
      w'.storage = w.storage ∧ w'.it._end = w.it._end ∧
      ∃ n, w'.it._begin = w.it._begin + 1 + n ∧ w'.it._index = w.it._index + 1 + n) ∧
    (∀ (storage : List α) (begin_ end_ : Nat) (w' : World α),
      World.StlIndexValueIterator storage begin_ end_ = some w' →
      w'.storage = storage ∧ w'.it._end = end_ ∧
      ∃ n, w'.it._begin = begin_ + n ∧ w'.it._index = n) ∧
    (∀ w : World α,
      Option.map World.it w.SkipZeros = w.it.SkipZeros w.storage ∧
      Option.map World.it w.Next = w.it.Next w.storage) ∧
    (∀ (storage : List α) (begin_ end_ : Nat),
      Option.map World.it (World.StlIndexValueIterator storage begin_ end_)
        = StlIndexValueIterator.StlIndexValueIterator storage begin_ end_) ∧
    (∀ w : World α, w.it._end ≤ w.storage.length →
      (∃ w', w.SkipZeros = some w') ∧ (∃ w', w.Next = some w') ∧
      ∃ w', World.StlIndexValueIterator w.storage w.it._begin w.it._end = some w') := by
  have key : ∀ (mem : List α) (s : StlIndexValueIterator) (w' : World α),
      World.SkipZeros ⟨mem, s⟩ = some w' →
      w'.storage = mem ∧ w'.it._end = s._end ∧
      ∃ n, w'.it._begin = s._begin + n ∧ w'.it._index = s._index + n := by
    intro mem s w' h
    unfold World.SkipZeros at h
    cases ht : s.SkipZeros mem with
    | none => simp only [ht] at h; cases h
    | some t =>
      simp only [ht] at h
      cases h
      obtain ⟨h1, n, h2, h3⟩ := SkipZeros_offsets mem s t ht
      exact ⟨rfl, h1, n, h2, h3⟩
  have hmap : ∀ (mem : List α) (s : StlIndexValueIterator),
      Option.map World.it (World.SkipZeros ⟨mem, s⟩) = s.SkipZeros mem := by
    intro mem s
    unfold World.SkipZeros
    cases s.SkipZeros mem <;> rfl
  have hret : ∀ (mem : List α) (e : Nat), e ≤ mem.length → ∀ b k,
      ∃ w', World.SkipZeros ⟨mem, ⟨b, e, k⟩⟩ = some w' := by
    intro mem e he b k
    obtain ⟨q, hq, _⟩ := SkipZeros_spec mem e he b k
    exact ⟨⟨mem, ⟨q, e, k + (q - b)⟩⟩, by simp only [World.SkipZeros, hq]⟩
  refine ⟨fun w w' h => key w.storage w.it w' h, fun w w' h => ?_, fun st b e w' h => ?_,
    fun w => ⟨hmap w.storage w.it, hmap _ _⟩, fun st b e => hmap _ _,
    fun w he => ⟨hret _ _ he _ _, hret _ _ he _ _, hret _ _ he _ _⟩⟩
  · exact key _ _ w' h
  · obtain ⟨h1, h2, n, h3, h4⟩ := key _ _ w' h
    exact ⟨h1, h2, n, h3, by simpa using h4⟩

/-- C13 (bounds safety under the usage protocol): on a valid range `begin_ ≤ end_` inside the
storage, in every state observed under the protocol the cursor is at most `|mem|` (indeed at
most `_end`); every read of `*_begin` by the `SkipZeros` of the constructor and by the
`SkipZeros` of a `Next()` called in such a state is at an offset `< |mem|`, so that both
return; in such a state with `IsValid()` the read of `Current()` is at an offset `< |mem|`
and has a result; and the loop guard `_begin < _end` holds exactly when `IsValid()` does. -/
theorem C13_bounds_safety (mem : List α) (begin_ end_ : Nat) (s : StlIndexValueIterator)
    (hbe : begin_ ≤ end_) (he : end_ ≤ mem.length) (hr : Reachable mem begin_ end_ s) :
    s._begin ≤ mem.length ∧ s._begin ≤ s._end ∧
    (∀ j ∈ StlIndexValueIterator.SkipZerosReads mem ⟨begin_, end_, 0⟩, j < mem.length) ∧
    (∀ j ∈ StlIndexValueIterator.SkipZerosReads mem ⟨s._begin + 1, s._end, s._index + 1⟩,
      j < mem.length) ∧
    (∃ s0, StlIndexValueIterator.StlIndexValueIterator mem begin_ end_ = some s0) ∧
    (s.IsValid = true →
      s._begin < mem.length ∧ (∃ v, s.Current mem = some (s._index, v)) ∧
      ∃ s', s.Next mem = some s') ∧
    (s._begin < s._end ↔ s.IsValid = true) := by
  obtain ⟨i1, _, i3, i4⟩ := Reachable_inv hbe he hr
  refine ⟨by omega, by omega, fun j hj => ?_, fun j hj => ?_, ?_, fun hv => ?_, ?_⟩
  · have := SkipZerosReads_bounds mem _ j hj
    simp only at this
    omega
  · have := SkipZerosReads_bounds mem _ j hj
    simp only at this
    omega
  · obtain ⟨q, hq, _⟩ := SkipZeros_spec mem end_ he begin_ 0
    exact ⟨_, hq⟩
  · have hne : s._begin ≠ s._end := by simpa [StlIndexValueIterator.IsValid] using hv
    obtain ⟨v, hm, _⟩ := i4 (by omega)
    obtain ⟨q, hq, _⟩ := SkipZeros_spec mem end_ he (s._begin + 1) (s._index + 1)
    exact ⟨by omega, ⟨v, by simp [StlIndexValueIterator.Current, hm]⟩,
      _, by rw [StlIndexValueIterator.Next, i1, hq]⟩
  · simp only [StlIndexValueIterator.IsValid, bne_iff_ne, ne_eq]
    omega

/-- C13 at `[0, 0, 3, 0, -5, 0, 0, 7]`, full range, in the state after the first `Next()`:
the reads of the next `Next()` are at the offsets `5, 6, 7`. -/
theorem C13_bounds_safety_witness :
    Reachable ([0, 0, 3, 0, -5, 0, 0, 7] : List Int) 0 8 ⟨4, 8, 4⟩ ∧
    StlIndexValueIterator.SkipZerosReads ([0, 0, 3, 0, -5, 0, 0, 7] : List Int) ⟨5, 8, 5⟩
      = [5, 6, 7] ∧
    (4 : Nat) ≤ ([0, 0, 3, 0, -5, 0, 0, 7] : List Int).length ∧
    ((4 : Nat) < 8 ↔ StlIndexValueIterator.IsValid ⟨4, 8, 4⟩ = true) :=
  have hr : Reachable ([0, 0, 3, 0, -5, 0, 0, 7] : List Int) 0 8 ⟨4, 8, 4⟩ :=
    Reachable.next (s := ⟨2, 8, 2⟩)
      (Reachable.construct (by
        simp [StlIndexValueIterator.StlIndexValueIterator, StlIndexValueIterator.SkipZeros]))
      (by decide)
      (by simp [StlIndexValueIterator.Next, StlIndexValueIterator.SkipZeros])
  ⟨hr, by simp [StlIndexValueIterator.SkipZerosReads],
    (C13_bounds_safety _ 0 8 ⟨4, 8, 4⟩ (by decide) (by decide) hr).1,
    (C13_bounds_safety _ 0 8 ⟨4, 8, 4⟩ (by decide) (by decide) hr).2.2.2.2.2.2⟩

/-- C14 (exhaustion is not absorbing): in an exhausted state (`_begin = _end = e`, logical
index `k`; for the full range of `S`, `e = k = |S|`) `IsValid()` is false; `Next()` returns
the state with cursor `e + 1` and logical index `k + 1`, its `SkipZeros` reads nothing (the
guard `_begin < _end` is false), and `IsValid()` is true again in that state. A `Current()`
there reads outside a storage that ends at `e`. -/
theorem C14_exhaustion_not_absorbing (mem : List α) (e k : Nat) :
    StlIndexValueIterator.IsValid ⟨e, e, k⟩ = false ∧
    StlIndexValueIterator.Next mem ⟨e, e, k⟩ = some ⟨e + 1, e, k + 1⟩ ∧
    StlIndexValueIterator.SkipZerosReads mem ⟨e + 1, e, k + 1⟩ = [] ∧
    ¬ (e + 1 < e) ∧
    StlIndexValueIterator.IsValid ⟨e + 1, e, k + 1⟩ = true ∧
    StlIndexValueIterator.Next mem ⟨mem.length, mem.length, mem.length⟩
      = some ⟨mem.length + 1, mem.length, mem.length + 1⟩ ∧
    StlIndexValueIterator.Current mem ⟨mem.length + 1, mem.length, mem.length + 1⟩ = none := by
  have hnext : ∀ e k : Nat,
      StlIndexValueIterator.Next mem ⟨e, e, k⟩ = some ⟨e + 1, e, k + 1⟩ := by
    intro e k
    rw [StlIndexValueIterator.Next, SkipZeros_of_not_lt mem _ (by simp)]
  refine ⟨by simp [StlIndexValueIterator.IsValid], hnext e k, ?_, by omega,
    by simp [StlIndexValueIterator.IsValid], hnext _ _, ?_⟩
  · rw [StlIndexValueIterator.SkipZerosReads, if_neg (by simp)]
  · have hnone : mem[mem.length + 1]? = none := List.getElem?_eq_none (by omega)
    simp only [StlIndexValueIterator.Current, hnone]

/-- C15: on a full-range state over `S` with cursor `p ≤ |S|`, `SkipZeros` returns a state
`t` on which `SkipZeros` changes nothing (idempotence); when the state is exhausted
(`p = |S|`) or the element at the cursor is not zero, `t` is the state itself; and `t` has
`_begin` and `_index` both advanced by the length of the maximal run of zeros of `S` that
starts at `p`, with `_end` as it was. -/
theorem C15_SkipZeros_idempotent (S : List α) (p k : Nat) (hp : p ≤ S.length) :
    ∃ t, StlIndexValueIterator.SkipZeros S ⟨p, S.length, k⟩ = some t ∧
      StlIndexValueIterator.SkipZeros S t = some t ∧
      ((p = S.length ∨ ∃ v, S[p]? = some v ∧ v ≠ 0) → t = ⟨p, S.length, k⟩) ∧
      t._begin = p + ((S.drop p).takeWhile (fun x => decide (x = 0))).length ∧
      t._index = k + ((S.drop p).takeWhile (fun x => decide (x = 0))).length ∧
      t._end = S.length := by
  obtain ⟨q, hq, h1, h2, h3, h4⟩ := SkipZeros_spec S S.length (le_refl _) p k
  have hqe : q ≤ S.length := h2 hp
  have hrun : ((S.drop p).takeWhile (fun x => decide (x = 0))).length = q - p := by
    apply takeWhile_zero_length
    · rw [List.length_drop]; omega
    · intro j hj
      rw [List.getElem?_drop]
      exact h3 (p + j) (by omega) (by omega)
    · intro hlt
      rw [List.length_drop] at hlt
      rw [List.getElem?_drop]
      have hpq : p + (q - p) = q := by omega
      rw [hpq]
      obtain ⟨v, hv, hv0⟩ := h4 (by omega)
      rw [hv]
      exact fun h => hv0 (Option.some.inj h)
  refine ⟨_, hq, ?_, ?_, by simp only; omega, by simp only; omega, rfl⟩
  · by_cases hlt : q < S.length
    · obtain ⟨v, hv, hv0⟩ := h4 hlt
      exact SkipZeros_of_nonzero S _ v hv hv0
    · exact SkipZeros_of_not_lt S _ hlt
  · intro hpark
    have hqp : q = p := by
      rcases hpark with h | ⟨v, hv, hv0⟩
      · omega
      · by_contra hne
        have := h3 p (le_refl _) (by omega)
        rw [hv] at this
        exact hv0 (Option.some.inj this)
    subst hqp
    simp

/-- C15 at `S = [0, 0, 3, 0, -5, 0, 0, 7]`, `p = 0`: the run of zeros at `0` has length `2`
and `SkipZeros` gives the state at `2`, which a second `SkipZeros` leaves alone. -/
theorem C15_SkipZeros_idempotent_witness :
    (0 : Nat) ≤ ([0, 0, 3, 0, -5, 0, 0, 7] : List Int).length ∧
    StlIndexValueIterator.SkipZeros ([0, 0, 3, 0, -5, 0, 0, 7] : List Int) ⟨0, 8, 0⟩
      = some ⟨2, 8, 2⟩ ∧
    StlIndexValueIterator.SkipZeros ([0, 0, 3, 0, -5, 0, 0, 7] : List Int) ⟨2, 8, 2⟩
      = some ⟨2, 8, 2⟩ ∧
    ∃ t, StlIndexValueIterator.SkipZeros ([0, 0, 3, 0, -5, 0, 0, 7] : List Int)
        ⟨0, ([0, 0, 3, 0, -5, 0, 0, 7] : List Int).length, 0⟩ = some t ∧
      StlIndexValueIterator.SkipZeros ([0, 0, 3, 0, -5, 0, 0, 7] : List Int) t = some t ∧
      ((0 = ([0, 0, 3, 0, -5, 0, 0, 7] : List Int).length ∨
          ∃ v, ([0, 0, 3, 0, -5, 0, 0, 7] : List Int)[0]? = some v ∧ v ≠ 0) →
        t = ⟨0, ([0, 0, 3, 0, -5, 0, 0, 7] : List Int).length, 0⟩) ∧
      t._begin = 0 + ((([0, 0, 3, 0, -5, 0, 0, 7] : List Int).drop 0).takeWhile
        (fun x => decide (x = 0))).length ∧
      t._index = 0 + ((([0, 0, 3, 0, -5, 0, 0, 7] : List Int).drop 0).takeWhile
        (fun x => decide (x = 0))).length ∧
      t._end = ([0, 0, 3, 0, -5, 0, 0, 7] : List Int).length :=
  ⟨by decide, by simp [StlIndexValueIterator.SkipZeros],
    by simp [StlIndexValueIterator.SkipZeros],
    C15_SkipZeros_idempotent ([0, 0, 3, 0, -5, 0, 0, 7] : List Int) 0 0 (by decide)⟩

end data

namespace predictors

variable {PredictorType DataVectorType Scalar Archive : Type}

/-- C7: for every inner predictor `P` and every input `x`, `SignPredictor(P).Predict(x)` is
true exactly when `P.Predict(x) ≥ 0` (zero counts as non-negative). In particular, with
rational outputs, an inner output of `-2.5` gives `false` and an inner output of `0` gives
`true`; `biasPredictor` shows both. -/
theorem C7_Predict_is_sign [LinearOrder Scalar] [Zero Scalar] :
    (∀ (I : PredictorInterface PredictorType DataVectorType Scalar Archive)
        (P : PredictorType) (x : DataVectorType),
      ((MakeSignPredictor P).Predict I x = true ↔ 0 ≤ I.Predict P x) ∧
      ((MakeSignPredictor P).Predict I x = false ↔ I.Predict P x < 0)) ∧
    (∀ (I : PredictorInterface PredictorType DataVectorType ℚ Archive)
        (P : PredictorType) (x : DataVectorType),
      (I.Predict P x = -5 / 2 → (MakeSignPredictor P).Predict I x = false) ∧
      (I.Predict P x = 0 → (MakeSignPredictor P).Predict I x = true)) ∧
    (biasPredictor.Predict (-5 / 2) [] = -5 / 2 ∧
      (MakeSignPredictor (-5 / 2 : ℚ)).Predict biasPredictor [] = false) ∧
    (biasPredictor.Predict 0 [] = 0 ∧
      (MakeSignPredictor (0 : ℚ)).Predict biasPredictor [] = true) := by
  refine ⟨fun I P x => ⟨?_, ?_⟩, fun I P x => ⟨fun h => ?_, fun h => ?_⟩, ?_, ?_⟩
  · simp [SignPredictor.Predict, MakeSignPredictor]
  · simp [SignPredictor.Predict, MakeSignPredictor]
  · simp only [SignPredictor.Predict, MakeSignPredictor, h]
    norm_num
  · simp [SignPredictor.Predict, MakeSignPredictor, h]
  · simp only [SignPredictor.Predict, MakeSignPredictor, biasPredictor]
    norm_num
  · simp [SignPredictor.Predict, MakeSignPredictor, biasPredictor]

/-- C8 (archive round trip): let the inner predictor type be one whose `ReadFromArchive`
undoes its `WriteToArchive` on the archive `a`. Writing a `SignPredictor` `D` to `a` with
`WriteToArchive` and reading the result with `ReadFromArchive` into a default-constructed
`SignPredictor` gives a `D'` with `D'.GetPredictor() = D.GetPredictor()` and
`D'.Predict(x) = D.Predict(x)` for every input `x`. -/
theorem C8_archive_round_trip [LinearOrder Scalar] [Zero Scalar]
    (I : PredictorInterface PredictorType DataVectorType Scalar Archive) (a : Archive)
    (hinner : ∀ p p0 : PredictorType, (I.ReadFromArchive p0 (I.WriteToArchive p a)).1 = p)
    (D : SignPredictor PredictorType) :
    ((SignPredictor.DefaultConstruct I).ReadFromArchive I
        (D.WriteToArchive I a)).1.GetPredictor = D.GetPredictor ∧
    ∀ x : DataVectorType,
      ((SignPredictor.DefaultConstruct I).ReadFromArchive I
        (D.WriteToArchive I a)).1.Predict I x = D.Predict I x := by
  have h : ((SignPredictor.DefaultConstruct I).ReadFromArchive I
      (D.WriteToArchive I a)).1._predictor = D._predictor :=
    hinner D._predictor I.DefaultConstruct
  exact ⟨h, fun x => by simp only [SignPredictor.Predict, h]⟩

/-- C8 at `biasPredictor`, the empty archive and the predictor `-5/2`. -/
theorem C8_archive_round_trip_witness :
    (∀ p p0 : ℚ,
      (biasPredictor.ReadFromArchive p0 (biasPredictor.WriteToArchive p [])).1 = p) ∧
    ((SignPredictor.DefaultConstruct biasPredictor).ReadFromArchive biasPredictor
        ((MakeSignPredictor (-5 / 2 : ℚ)).WriteToArchive biasPredictor [])).1.GetPredictor
      = (MakeSignPredictor (-5 / 2 : ℚ)).GetPredictor ∧
    ∀ x : List ℚ,
      ((SignPredictor.DefaultConstruct biasPredictor).ReadFromArchive biasPredictor
        ((MakeSignPredictor (-5 / 2 : ℚ)).WriteToArchive biasPredictor [])).1.Predict
          biasPredictor x
      = (MakeSignPredictor (-5 / 2 : ℚ)).Predict biasPredictor x :=
  ⟨fun _ _ => rfl,
    C8_archive_round_trip biasPredictor [] (fun _ _ => rfl) (MakeSignPredictor (-5 / 2 : ℚ))⟩

/-- C9 (pass-through persistence): for every inner predictor `P` and every archiver state
`a`, `SignPredictor(P).WriteToArchive` turns `a` into exactly the state `P.WriteToArchive`
turns it into: the decorator writes nothing of its own. With `biasPredictor`, whose writes
push one number, the archive grows by that one number. -/
theorem C9_WriteToArchive_pass_through :
    (∀ (I : PredictorInterface PredictorType DataVectorType Scalar Archive)
        (P : PredictorType) (a : Archive),
      (MakeSignPredictor P).WriteToArchive I a = I.WriteToArchive P a) ∧
    (∀ (b : ℚ) (a : List ℚ),
      (MakeSignPredictor b).WriteToArchive biasPredictor a = b :: a) :=
  ⟨fun _ _ _ => rfl, fun _ _ => rfl⟩

end predictors
end emll

